import Mathlib

/-!
Verification development for `src/quicksort_collection.cpp`.

The C++ core is embedded shallowly as pure functions on `List α`:

* `swapIdx` models `std::iter_swap` on two positions of the underlying sequence;
* `partitionStep` models the partition step of both quicksort drivers
  (lines 97-105 and 121-129 of the source): swap the chosen pivot to the
  front, split the remaining elements `(first+1, last)` by
  `cmp(val, pivot_value)` (the value arrangement produced by
  `std::partition`: all elements satisfying the predicate precede the rest;
  `std::partition` leaves the order within each group unspecified, realised
  here as the stable split), then swap the pivot with the element just
  before the boundary, returning the rearranged range and the boundary index;
* `sequential_quicksort` (lines 87-109) and `naive_parallel_quicksort`
  (lines 111-145) model the two drivers; the in-place mutation of the range
  is modelled by returning the final contents of the range.  The thread
  fork/join of the parallel driver only affects scheduling: `t1` sorts
  `[first, boundary-1)` and is joined before the call returns, so the value
  contents observed after the call are the sorted left part, the pivot, and
  the sorted right part, exactly as in the sequential driver;
* `naive_parallel_quicksort_trace` records the fork decisions and the depth
  arguments of the parallel driver (lines 131-144) so that the fork
  discipline can be stated;
* `detail.insertion_sort` models `detail::insertion_sort` (lines 32-40):
  `std::upper_bound` on the already-sorted prefix finds the first position
  whose element `y` satisfies `cmp(x, y)`, and `std::rotate` moves the
  current element there; value-wise the loop folds an upper-bound insertion
  over the input;
* `detail.sort_small_instances` models lines 48-56 (insertion sort with
  `std::less<>` for ranges of length `< 40`, no effect otherwise);
* `pivot.median` models the midpoint selector (lines 79-83) as an index.
  `pivot::random` draws its index from a shared `std::mt19937`; the theorems
  below quantify over an arbitrary in-range pivot selector (`GoodPivot`),
  which covers every sequence of draws the random policy can produce.

The sorts are generic in the element type and comparator; a comparator is a
Bool-valued binary predicate, and a valid one is a strict weak ordering
(`StrictWeakCmp`: asymmetric and negatively transitive).
-/

universe u

variable {α : Type u}

/-- Model of `std::iter_swap` applied to positions `i` and `j` of the
sequence: both positions must be in range (the C++ iterators are valid);
out-of-range indices leave the list unchanged. -/
def swapIdx (l : List α) (i j : Nat) : List α :=
  match l[i]?, l[j]? with
  | some a, some b => (l.set i b).set j a
  | _, _ => l

theorem length_swapIdx (l : List α) (i j : Nat) : (swapIdx l i j).length = l.length := by
  unfold swapIdx
  split <;> simp

theorem length_filter_add_length_filter_not (p : α → Bool) (l : List α) :
    (l.filter p).length + (l.filter (fun v => !p v)).length = l.length := by
  have h := (List.filter_append_perm p l).length_eq
  simpa using h

/-- Partition step shared verbatim by both quicksort drivers (source lines
97-105 and 121-129).  `pivot_value` is `*pivot` read before the swaps; the
first `swapIdx` is `std::iter_swap(first, pivot)`; the split of the
remaining elements is `std::partition(std::next(first), last, ...)`; the
second `swapIdx` is `std::iter_swap(std::prev(greater_than_pivot), first)`.
Returns the rearranged range together with the boundary index
(`greater_than_pivot` as an offset from `first`).  An out-of-range pivot
index is undefined behaviour in C++ (valid pivot selectors never produce
one); that case is modelled as a no-op with boundary 1. -/
def partitionStep (pivot_func : List α → Nat) (cmp : α → α → Bool) (l : List α) :
    List α × Nat :=
  match l[pivot_func l]? with
  | none => (l, 1)
  | some pivot_value =>
    let rest := (swapIdx l 0 (pivot_func l)).tail
    let less := rest.filter (fun v => cmp v pivot_value)
    let not_less := rest.filter (fun v => !cmp v pivot_value)
    (swapIdx (pivot_value :: (less ++ not_less)) 0 less.length, less.length + 1)

theorem partitionStep_shrinks (pivot_func : List α → Nat) (cmp : α → α → Bool)
    (l : List α) (h2 : 2 ≤ l.length) :
    ((partitionStep pivot_func cmp l).1.take ((partitionStep pivot_func cmp l).2 - 1)).length
        < l.length ∧
    ((partitionStep pivot_func cmp l).1.drop (partitionStep pivot_func cmp l).2).length
        < l.length := by
  unfold partitionStep
  split
  · simp only [List.length_take, List.length_drop]
    omega
  · rename_i pivot_value hpv
    simp only [List.length_take, List.length_drop, length_swapIdx, List.length_cons,
      List.length_append]
    have hsum := length_filter_add_length_filter_not
      (fun v => cmp v pivot_value) (swapIdx l 0 (pivot_func l)).tail
    have htail : ((swapIdx l 0 (pivot_func l)).tail).length = l.length - 1 := by
      simp [length_swapIdx]
    omega

/-- Sequential quicksort driver, source lines 87-109.  The two recursive
calls sort `[first, std::prev(greater_than_pivot))` and
`[greater_than_pivot, last)`; the element at `boundary - 1` (the pivot) is
left in place between them. -/
def sequential_quicksort (pivot_func : List α → Nat) (cmp : α → α → Bool)
    (l : List α) : List α :=
  if h : l.length < 2 then l
  else
    let pb := partitionStep pivot_func cmp l
    sequential_quicksort pivot_func cmp (pb.1.take (pb.2 - 1))
      ++ (pb.1.drop (pb.2 - 1)).take 1
      ++ sequential_quicksort pivot_func cmp (pb.1.drop pb.2)
termination_by l.length
decreasing_by
  · exact (partitionStep_shrinks pivot_func cmp l (by omega)).1
  · exact (partitionStep_shrinks pivot_func cmp l (by omega)).2

/-- Parallel quicksort driver, source lines 111-145.  `depth` is the `int`
recursion-depth argument (default `0` at the top-level call).  For
`depth < 5` the left sub-range is sorted by a spawned `std::thread` that is
joined before the call returns, so the contents of the range after the call
are the same as in the sequential branch; for `depth >= 5` both sub-ranges
are sorted by plain recursive calls in the calling context. -/
def naive_parallel_quicksort (pivot_func : List α → Nat) (cmp : α → α → Bool)
    (l : List α) (depth : Int) : List α :=
  if h : l.length < 2 then l
  else
    let pb := partitionStep pivot_func cmp l
    if depth < 5 then
      naive_parallel_quicksort pivot_func cmp (pb.1.take (pb.2 - 1)) (depth + 1)
        ++ (pb.1.drop (pb.2 - 1)).take 1
        ++ naive_parallel_quicksort pivot_func cmp (pb.1.drop pb.2) (depth + 1)
    else
      naive_parallel_quicksort pivot_func cmp (pb.1.take (pb.2 - 1)) (depth + 1)
        ++ (pb.1.drop (pb.2 - 1)).take 1
        ++ naive_parallel_quicksort pivot_func cmp (pb.1.drop pb.2) (depth + 1)
termination_by l.length
decreasing_by
  · exact (partitionStep_shrinks pivot_func cmp l (by omega)).1
  · exact (partitionStep_shrinks pivot_func cmp l (by omega)).2
  · exact (partitionStep_shrinks pivot_func cmp l (by omega)).1
  · exact (partitionStep_shrinks pivot_func cmp l (by omega)).2

/-- Call tree of `naive_parallel_quicksort`: a leaf for the trivial ranges
(length `< 2`), and for each partitioning call the `depth` argument it
received, whether it launched a `std::thread` for the left sub-range
(source line 131: `depth < 5`), and the sub-trees of the two recursive
calls. -/
inductive PTrace (α : Type u) where
  | leaf : List α → PTrace α
  | node : Int → Bool → PTrace α → PTrace α → PTrace α

/-- Execution trace of `naive_parallel_quicksort` (source lines 111-145):
records, for every call, its `depth` argument and whether the `depth < 5`
branch (thread fork, lines 131-139) or the sequential branch (lines
140-144) was taken.  Both branches recurse on the same sub-ranges with
`depth + 1`. -/
def naive_parallel_quicksort_trace (pivot_func : List α → Nat) (cmp : α → α → Bool)
    (l : List α) (depth : Int) : PTrace α :=
  if h : l.length < 2 then PTrace.leaf l
  else
    let pb := partitionStep pivot_func cmp l
    if depth < 5 then
      PTrace.node depth true
        (naive_parallel_quicksort_trace pivot_func cmp (pb.1.take (pb.2 - 1)) (depth + 1))
        (naive_parallel_quicksort_trace pivot_func cmp (pb.1.drop pb.2) (depth + 1))
    else
      PTrace.node depth false
        (naive_parallel_quicksort_trace pivot_func cmp (pb.1.take (pb.2 - 1)) (depth + 1))
        (naive_parallel_quicksort_trace pivot_func cmp (pb.1.drop pb.2) (depth + 1))
termination_by l.length
decreasing_by
  · exact (partitionStep_shrinks pivot_func cmp l (by omega)).1
  · exact (partitionStep_shrinks pivot_func cmp l (by omega)).2
  · exact (partitionStep_shrinks pivot_func cmp l (by omega)).1
  · exact (partitionStep_shrinks pivot_func cmp l (by omega)).2

/-- Fork discipline claimed by the spec, as a predicate on a call tree:
every partitioning call that received depth `d` forked exactly when
`d < 5`, and both of its recursive calls received `d + 1`. -/
def ForkDisciplineFrom : PTrace α → Int → Prop
  | PTrace.leaf _, _ => True
  | PTrace.node d f lt rt, d0 =>
      d = d0 ∧ f = decide (d0 < 5) ∧
      ForkDisciplineFrom lt (d0 + 1) ∧ ForkDisciplineFrom rt (d0 + 1)

namespace pivot

/-- Midpoint pivot selector (source lines 79-83, named `median` there): the
position at offset `length / 2` from `first`, modelled as that index. -/
def median (l : List α) : Nat := l.length / 2

end pivot

namespace detail

/-- One step of `detail::insertion_sort` (source lines 32-40): insert `x`
into the already-sorted prefix at the position found by
`std::upper_bound(first, begin, *begin, cmp)`, i.e. before the first
element `y` with `cmp x y`; `std::rotate` realises the relocation. -/
def upper_bound_insert (cmp : α → α → Bool) (x : α) : List α → List α
  | [] => [x]
  | y :: ys => if cmp x y then x :: y :: ys else y :: upper_bound_insert cmp x ys

/-- Model of `detail::insertion_sort` (source lines 32-40): the loop scans
`begin` from `first` to `last` keeping `[first, begin)` sorted, so
value-wise it folds `upper_bound_insert` over the input from the left. -/
def insertion_sort (cmp : α → α → Bool) (l : List α) : List α :=
  List.foldl (fun acc x => upper_bound_insert cmp x acc) [] l

/-- Model of `detail::sort_small_instances` (source lines 48-56): ranges
shorter than 40 are insertion sorted with `std::less<>` (the two-argument
`detail::insertion_sort` overload, lines 42-46); other ranges are left
untouched.  The function takes no comparator. -/
def sort_small_instances {β : Type u} [LinearOrder β] (l : List β) : List β :=
  if l.length < 40 then insertion_sort (fun a b => decide (a < b)) l else l

end detail

/-- A pivot selector is valid when it returns an in-range position on every
range the drivers pass it (the drivers only consult it on ranges of length
at least 2).  Both source policies satisfy this: `pivot::random` draws a
uniform index in `[0, length-1]`, `pivot::median` returns `length / 2`. -/
def GoodPivot (pivot_func : List α → Nat) : Prop :=
  ∀ l : List α, 2 ≤ l.length → pivot_func l < l.length

/-- Valid comparator: a strict weak ordering, characterised by asymmetry
together with negative transitivity. -/
def StrictWeakCmp (cmp : α → α → Bool) : Prop :=
  (∀ a b, cmp a b = true → cmp b a = false) ∧
  (∀ a b c, cmp a b = false → cmp b c = false → cmp a c = false)

/-- Two elements are equivalent under `cmp` when neither precedes the
other. -/
def eqvB (cmp : α → α → Bool) (a b : α) : Bool := !cmp a b && !cmp b a

/-- Non-decreasing under `cmp`: `!cmp(S[i+1], S[i])` at every adjacent pair. -/
def SortedUnder (cmp : α → α → Bool) (l : List α) : Prop :=
  List.Chain' (fun a b => cmp b a = false) l

theorem set_self (l : List α) (i : Nat) (a : α) (h : l[i]? = some a) :
    l.set i a = l := by
  induction l generalizing i with
  | nil => simp at h
  | cons x t ih =>
    cases i with
    | zero => simp at h; simp [h]
    | succ n => simp at h; simp [ih n h]

theorem cons_set_perm (t : List α) (m : Nat) (a b : α) (h : t[m]? = some b) :
    (b :: t.set m a).Perm (a :: t) := by
  induction t generalizing m with
  | nil => simp at h
  | cons y u ih =>
    cases m with
    | zero =>
      simp only [List.getElem?_cons_zero, Option.some.injEq] at h
      rw [← h]
      simpa using List.Perm.swap a y u
    | succ m =>
      simp only [List.getElem?_cons_succ] at h
      have h1 : (b :: (y :: u).set (m + 1) a) = b :: y :: u.set m a := by simp
      rw [h1]
      have h2 : (b :: y :: u.set m a).Perm (y :: b :: u.set m a) := List.Perm.swap y b _
      have h3 : (y :: b :: u.set m a).Perm (y :: a :: u) := (ih m h).cons y
      have h4 : (y :: a :: u).Perm (a :: y :: u) := List.Perm.swap a y u
      exact (h2.trans h3).trans h4

theorem set_set_perm (l : List α) (i j : Nat) (a b : α)
    (hi : l[i]? = some a) (hj : l[j]? = some b) :
    ((l.set i b).set j a).Perm l := by
  induction l generalizing i j with
  | nil => simp at hi
  | cons x t ih =>
    cases i with
    | zero =>
      simp only [List.getElem?_cons_zero, Option.some.injEq] at hi
      cases j with
      | zero =>
        simp only [List.getElem?_cons_zero, Option.some.injEq] at hj
        rw [← hi, ← hj]
        simp
      | succ m =>
        simp only [List.getElem?_cons_succ] at hj
        rw [← hi]
        simpa using cons_set_perm t m x b hj
    | succ n =>
      simp only [List.getElem?_cons_succ] at hi
      cases j with
      | zero =>
        simp only [List.getElem?_cons_zero, Option.some.injEq] at hj
        rw [← hj]
        simpa using cons_set_perm t n x a hi
      | succ m =>
        simp only [List.getElem?_cons_succ] at hj
        simpa using (ih n m hi hj).cons x

theorem swapIdx_perm (l : List α) (i j : Nat) : (swapIdx l i j).Perm l := by
  unfold swapIdx
  split
  · rename_i a b hi hj
    exact set_set_perm l i j a b hi hj
  · exact List.Perm.refl l

theorem swapIdx_self (l : List α) (i : Nat) : swapIdx l i i = l := by
  unfold swapIdx
  split
  · rename_i a b hi hj
    rw [hi] at hj
    cases hj
    rw [List.set_set, set_self l i a hi]
  · rfl

theorem swapIdx_zero_spec (l : List α) (j : Nat) (b : α) (hj : l[j]? = some b)
    (h0 : 0 < l.length) : ∃ rest : List α, swapIdx l 0 j = b :: rest := by
  cases l with
  | nil => simp at h0
  | cons x t =>
    cases j with
    | zero =>
      simp at hj
      subst hj
      exact ⟨t, swapIdx_self _ 0⟩
    | succ m =>
      refine ⟨t.set m x, ?_⟩
      unfold swapIdx
      rw [hj]
      simp

theorem getElem?_middle (ls : List α) (x : α) (r : List α) :
    (ls ++ x :: r)[ls.length]? = some x := by
  induction ls with
  | nil => simp
  | cons y ls ih => simpa using ih

theorem set_middle (ls : List α) (x pv : α) (r : List α) :
    (ls ++ x :: r).set ls.length pv = ls ++ pv :: r := by
  induction ls with
  | nil => simp
  | cons y ls ih => simpa using ih

theorem swapIdx_front_concat (pv x : α) (ls notless : List α) :
    swapIdx (pv :: ((ls ++ [x]) ++ notless)) 0 (ls ++ [x]).length
      = x :: (ls ++ pv :: notless) := by
  have hshape : pv :: ((ls ++ [x]) ++ notless) = pv :: (ls ++ x :: notless) := by
    simp
  have hlen : (ls ++ [x]).length = ls.length + 1 := by simp
  rw [hshape, hlen]
  have hj : (pv :: (ls ++ x :: notless))[ls.length + 1]? = some x := by
    simpa using getElem?_middle ls x notless
  unfold swapIdx
  rw [hj]
  simp [set_middle]

theorem drop_cons_append_append (x pv : α) (ls r : List α) :
    (x :: (ls ++ pv :: r)).drop ((ls ++ [x]).length + 1) = r := by
  have h1 : (ls ++ [x]).length + 1 = ls.length + 1 + 1 := by simp
  rw [h1, List.drop_succ_cons]
  have h2 : ls ++ pv :: r = (ls ++ [pv]) ++ r := by simp
  rw [h2]
  exact List.drop_left' (by simp)

theorem partitionStep_spec (pivot_func : List α → Nat) (cmp : α → α → Bool)
    (l : List α) (pv : α) (hpv : l[pivot_func l]? = some pv) (h2 : 2 ≤ l.length) :
    ∃ rest : List α,
      swapIdx l 0 (pivot_func l) = pv :: rest ∧
      rest.length + 1 = l.length ∧
      (pv :: rest).Perm l ∧
      (partitionStep pivot_func cmp l).2 = (rest.filter (fun v => cmp v pv)).length + 1 ∧
      ((partitionStep pivot_func cmp l).1.take ((partitionStep pivot_func cmp l).2 - 1)).Perm
        (rest.filter (fun v => cmp v pv)) ∧
      ((partitionStep pivot_func cmp l).1.drop ((partitionStep pivot_func cmp l).2 - 1)).take 1
        = [pv] ∧
      (partitionStep pivot_func cmp l).1.drop (partitionStep pivot_func cmp l).2
        = rest.filter (fun v => !cmp v pv) ∧
      (partitionStep pivot_func cmp l).1.length = l.length := by
  obtain ⟨rest, hsw⟩ := swapIdx_zero_spec l (pivot_func l) pv hpv (by omega)
  have hlen : rest.length + 1 = l.length := by
    have := length_swapIdx l 0 (pivot_func l)
    rw [hsw] at this
    simpa using this
  have hperm : (pv :: rest).Perm l := hsw ▸ swapIdx_perm l 0 (pivot_func l)
  have htail : (swapIdx l 0 (pivot_func l)).tail = rest := by rw [hsw]; rfl
  have hsum := length_filter_add_length_filter_not (fun v => cmp v pv) rest
  have hps : partitionStep pivot_func cmp l =
      (swapIdx (pv :: (rest.filter (fun v => cmp v pv) ++ rest.filter (fun v => !cmp v pv))) 0
        (rest.filter (fun v => cmp v pv)).length,
       (rest.filter (fun v => cmp v pv)).length + 1) := by
    unfold partitionStep
    rw [hpv, htail]
  refine ⟨rest, hsw, hlen, hperm, by rw [hps], ?_, ?_, ?_, ?_⟩
  · rcases List.eq_nil_or_concat (rest.filter (fun v => cmp v pv)) with hnil | ⟨ls, x, hcat⟩
    · rw [hps, hnil]
      simp
    · rw [hps, hcat, List.concat_eq_append, swapIdx_front_concat]
      simp only [List.length_append, List.length_cons, List.length_nil]
      have ht : (x :: (ls ++ pv :: rest.filter (fun v => !cmp v pv))).take (ls.length + 1 + 1 - 1)
          = x :: ls := by
        simp [List.take_left]
      rw [ht]
      exact (List.perm_append_singleton x ls).symm
  · rcases List.eq_nil_or_concat (rest.filter (fun v => cmp v pv)) with hnil | ⟨ls, x, hcat⟩
    · rw [hps, hnil]
      simp [swapIdx_self]
    · rw [hps, hcat, List.concat_eq_append, swapIdx_front_concat]
      simp [List.drop_left]
  · rcases List.eq_nil_or_concat (rest.filter (fun v => cmp v pv)) with hnil | ⟨ls, x, hcat⟩
    · rw [hps, hnil]
      simp [swapIdx_self]
    · rw [hps, hcat, List.concat_eq_append, swapIdx_front_concat]
      exact drop_cons_append_append x pv ls _
  · rw [hps]
    simp only [length_swapIdx, List.length_cons, List.length_append]
    omega

theorem sequential_quicksort_short (pivot_func : List α → Nat) (cmp : α → α → Bool)
    (l : List α) (h : l.length < 2) : sequential_quicksort pivot_func cmp l = l := by
  unfold sequential_quicksort
  simp [h]

theorem sequential_quicksort_unfold (pivot_func : List α → Nat) (cmp : α → α → Bool)
    (l : List α) (h : ¬ l.length < 2) :
    sequential_quicksort pivot_func cmp l =
      sequential_quicksort pivot_func cmp
          ((partitionStep pivot_func cmp l).1.take ((partitionStep pivot_func cmp l).2 - 1))
        ++ ((partitionStep pivot_func cmp l).1.drop ((partitionStep pivot_func cmp l).2 - 1)).take 1
        ++ sequential_quicksort pivot_func cmp
          ((partitionStep pivot_func cmp l).1.drop (partitionStep pivot_func cmp l).2) := by
  conv_lhs => rw [sequential_quicksort]
  simp [h]

theorem naive_parallel_quicksort_short (pivot_func : List α → Nat) (cmp : α → α → Bool)
    (l : List α) (depth : Int) (h : l.length < 2) :
    naive_parallel_quicksort pivot_func cmp l depth = l := by
  unfold naive_parallel_quicksort
  simp [h]

theorem naive_parallel_quicksort_unfold (pivot_func : List α → Nat) (cmp : α → α → Bool)
    (l : List α) (depth : Int) (h : ¬ l.length < 2) :
    naive_parallel_quicksort pivot_func cmp l depth =
      naive_parallel_quicksort pivot_func cmp
          ((partitionStep pivot_func cmp l).1.take ((partitionStep pivot_func cmp l).2 - 1))
          (depth + 1)
        ++ ((partitionStep pivot_func cmp l).1.drop ((partitionStep pivot_func cmp l).2 - 1)).take 1
        ++ naive_parallel_quicksort pivot_func cmp
          ((partitionStep pivot_func cmp l).1.drop (partitionStep pivot_func cmp l).2)
          (depth + 1) := by
  conv_lhs => rw [naive_parallel_quicksort]
  by_cases hd : depth < 5 <;> simp [h, hd]

theorem exists_pivot_value (l : List α) (pivot_func : List α → Nat)
    (hgp : GoodPivot pivot_func) (h2 : 2 ≤ l.length) :
    ∃ pv, l[pivot_func l]? = some pv := by
  have hv : pivot_func l < l.length := hgp l h2
  exact ⟨l[pivot_func l], List.getElem?_eq_getElem hv⟩

theorem sequential_quicksort_perm (pivot_func : List α → Nat) (cmp : α → α → Bool)
    (hgp : GoodPivot pivot_func) (l : List α) :
    (sequential_quicksort pivot_func cmp l).Perm l := by
  suffices h : ∀ n (l : List α), l.length = n → (sequential_quicksort pivot_func cmp l).Perm l by
    exact h l.length l rfl
  intro n
  induction n using Nat.strong_induction_on with
  | _ n ih =>
    intro l hn
    by_cases hs : l.length < 2
    · rw [sequential_quicksort_short _ _ _ hs]
    · have h2 : 2 ≤ l.length := by omega
      obtain ⟨pv, hpv⟩ := exists_pivot_value l pivot_func hgp h2
      obtain ⟨rest, hsw, hlen, hperm, hb, htake, hmid, hdrop, halen⟩ :=
        partitionStep_spec pivot_func cmp l pv hpv h2
      have hlt := partitionStep_shrinks pivot_func cmp l h2
      rw [sequential_quicksort_unfold _ _ _ hs, hmid]
      have ih1 := ih _ (by omega : ((partitionStep pivot_func cmp l).1.take
        ((partitionStep pivot_func cmp l).2 - 1)).length < n) _ rfl
      have ih2 := ih _ (by omega : ((partitionStep pivot_func cmp l).1.drop
        (partitionStep pivot_func cmp l).2).length < n) _ rfl
      have pA := ih1.trans htake
      have pB := ih2.trans (by rw [hdrop])
      have h1 := (pA.append ((List.Perm.refl [pv]).append pB))
      have h1' : (sequential_quicksort pivot_func cmp
            ((partitionStep pivot_func cmp l).1.take ((partitionStep pivot_func cmp l).2 - 1))
          ++ [pv]
          ++ sequential_quicksort pivot_func cmp
            ((partitionStep pivot_func cmp l).1.drop (partitionStep pivot_func cmp l).2)).Perm
          (rest.filter (fun v => cmp v pv)
            ++ ([pv] ++ rest.filter (fun v => !cmp v pv))) := by
        simpa [List.append_assoc] using h1
      have h2' : (rest.filter (fun v => cmp v pv)
            ++ ([pv] ++ rest.filter (fun v => !cmp v pv))).Perm (pv :: rest) := by
        have hm : (rest.filter (fun v => cmp v pv)
            ++ (pv :: rest.filter (fun v => !cmp v pv))).Perm
            (pv :: (rest.filter (fun v => cmp v pv) ++ rest.filter (fun v => !cmp v pv))) :=
          List.perm_middle
        simpa using hm.trans ((List.filter_append_perm _ rest).cons pv)
      exact (h1'.trans h2').trans hperm

theorem sequential_quicksort_sorted (pivot_func : List α → Nat) (cmp : α → α → Bool)
    (hgp : GoodPivot pivot_func)
    (hasym : ∀ a b, cmp a b = true → cmp b a = false) (l : List α) :
    SortedUnder cmp (sequential_quicksort pivot_func cmp l) := by
  suffices h : ∀ n (l : List α), l.length = n →
      SortedUnder cmp (sequential_quicksort pivot_func cmp l) by
    exact h l.length l rfl
  intro n
  induction n using Nat.strong_induction_on with
  | _ n ih =>
    intro l hn
    by_cases hs : l.length < 2
    · rw [sequential_quicksort_short _ _ _ hs]
      unfold SortedUnder
      interval_cases hl : l.length
      · simp [List.length_eq_zero.mp hl]
      · obtain ⟨a, ha⟩ := List.length_eq_one.mp hl
        simp [ha]
    · have h2 : 2 ≤ l.length := by omega
      obtain ⟨pv, hpv⟩ := exists_pivot_value l pivot_func hgp h2
      obtain ⟨rest, hsw, hlen, hperm, hb, htake, hmid, hdrop, halen⟩ :=
        partitionStep_spec pivot_func cmp l pv hpv h2
      have hlt := partitionStep_shrinks pivot_func cmp l h2
      rw [sequential_quicksort_unfold _ _ _ hs, hmid]
      have ih1 := ih _ (by omega : ((partitionStep pivot_func cmp l).1.take
        ((partitionStep pivot_func cmp l).2 - 1)).length < n) _ rfl
      have ih2 := ih _ (by omega : ((partitionStep pivot_func cmp l).1.drop
        (partitionStep pivot_func cmp l).2).length < n) _ rfl
      have permA := sequential_quicksort_perm pivot_func cmp hgp
        ((partitionStep pivot_func cmp l).1.take ((partitionStep pivot_func cmp l).2 - 1))
      have permB := sequential_quicksort_perm pivot_func cmp hgp
        ((partitionStep pivot_func cmp l).1.drop (partitionStep pivot_func cmp l).2)
      have memA : ∀ x ∈ sequential_quicksort pivot_func cmp
          ((partitionStep pivot_func cmp l).1.take ((partitionStep pivot_func cmp l).2 - 1)),
          cmp x pv = true := by
        intro x hx
        have hx' := (permA.trans htake).mem_iff.mp hx
        exact (List.mem_filter.mp hx').2
      have memB : ∀ x ∈ sequential_quicksort pivot_func cmp
          ((partitionStep pivot_func cmp l).1.drop (partitionStep pivot_func cmp l).2),
          cmp x pv = false := by
        intro x hx
        have hx' := (permB.trans (by rw [hdrop])).mem_iff.mp hx
        have := (List.mem_filter.mp hx').2
        simpa using this
      unfold SortedUnder
      rw [List.append_assoc]
      rw [List.chain'_append]
      refine ⟨ih1, ?_, ?_⟩
      · rw [List.singleton_append, List.chain'_cons']
        refine ⟨?_, ih2⟩
        intro y hy
        exact memB y (List.mem_of_mem_head? hy)
      · intro x hx y hy
        rw [List.singleton_append] at hy
        simp only [List.head?_cons, Option.mem_def, Option.some.injEq] at hy
        subst hy
        exact hasym x pv (memA x (List.mem_of_mem_getLast? hx))

theorem naive_parallel_quicksort_eq_sequential (pivot_func : List α → Nat)
    (cmp : α → α → Bool) (l : List α) (depth : Int) :
    naive_parallel_quicksort pivot_func cmp l depth = sequential_quicksort pivot_func cmp l := by
  suffices h : ∀ n (l : List α), l.length = n → ∀ depth : Int,
      naive_parallel_quicksort pivot_func cmp l depth = sequential_quicksort pivot_func cmp l by
    exact h l.length l rfl depth
  intro n
  induction n using Nat.strong_induction_on with
  | _ n ih =>
    intro l hn depth
    by_cases hs : l.length < 2
    · rw [naive_parallel_quicksort_short _ _ _ _ hs, sequential_quicksort_short _ _ _ hs]
    · have h2 : 2 ≤ l.length := by omega
      have hlt := partitionStep_shrinks pivot_func cmp l h2
      rw [naive_parallel_quicksort_unfold _ _ _ _ hs, sequential_quicksort_unfold _ _ _ hs]
      rw [ih _ (by omega : ((partitionStep pivot_func cmp l).1.take
        ((partitionStep pivot_func cmp l).2 - 1)).length < n) _ rfl]
      rw [ih _ (by omega : ((partitionStep pivot_func cmp l).1.drop
        (partitionStep pivot_func cmp l).2).length < n) _ rfl]

theorem swo_irrefl (cmp : α → α → Bool) (hswo : StrictWeakCmp cmp) (a : α) :
    cmp a a = false := by
  cases hc : cmp a a
  · rfl
  · have := hswo.1 a a hc
    rw [hc] at this
    exact absurd this (by simp)

theorem swo_trans (cmp : α → α → Bool) (hswo : StrictWeakCmp cmp) (a b c : α)
    (hab : cmp a b = true) (hbc : cmp b c = true) : cmp a c = true := by
  cases hac : cmp a c
  · have hcb := hswo.1 b c hbc
    have := hswo.2 a c b hac hcb
    rw [hab] at this
    exact absurd this (by simp)
  · rfl

theorem sortedUnder_pairwise (cmp : α → α → Bool) (hswo : StrictWeakCmp cmp)
    (l : List α) (h : SortedUnder cmp l) :
    l.Pairwise (fun a b => cmp b a = false) := by
  haveI : IsTrans α (fun a b => cmp b a = false) :=
    ⟨fun a b c h1 h2 => hswo.2 c b a h2 h1⟩
  exact List.chain'_iff_pairwise.mp h

theorem countP_lt_of_mem (l : List α) (p q : α → Bool) (x : α) (hx : x ∈ l)
    (hpq : ∀ z ∈ l, p z = true → q z = true) (hpx : p x = false) (hqx : q x = true) :
    l.countP p < l.countP q := by
  induction l with
  | nil => simp at hx
  | cons y t ih =>
    rw [List.countP_cons, List.countP_cons]
    have hmono : t.countP p ≤ t.countP q :=
      List.countP_mono_left (fun z hz => hpq z (List.mem_cons_of_mem y hz))
    rcases List.mem_cons.mp hx with hxy | hxt
    · subst hxy
      rw [hpx, hqx]
      have e0 : (if (false : Bool) = true then 1 else 0) = 0 := by simp
      have e1 : (if (true : Bool) = true then 1 else 0) = 1 := by simp
      rw [e0, e1]
      omega
    · have hlt := ih hxt (fun z hz => hpq z (List.mem_cons_of_mem y hz))
      have hhead : (if p y = true then 1 else 0) ≤ (if q y = true then 1 else 0) := by
        cases hpy : p y
        · simp
        · simp [hpq y (List.mem_cons_self y t) hpy]
      omega

theorem sorted_perm_pointwise (cmp : α → α → Bool) (hswo : StrictWeakCmp cmp)
    (l1 l2 : List α) (hp : l1.Perm l2)
    (h1 : SortedUnder cmp l1) (h2 : SortedUnder cmp l2) :
    ∀ (i : Nat) (x y : α), l1[i]? = some x → l2[i]? = some y →
      cmp x y = false ∧ cmp y x = false := by
  intro i x y hx hy
  have hmono : ∀ a b : α, cmp b a = false →
      l1.countP (fun w => cmp w a) ≤ l1.countP (fun w => cmp w b) := by
    intro a b hab
    apply List.countP_mono_left
    intro w _ hwa
    cases hcb : cmp w b
    · have := hswo.2 w b a hcb hab
      rw [hwa] at this
      exact absurd this (by simp)
    · rfl
  have p1 := sortedUnder_pairwise cmp hswo l1 h1
  have p2 := sortedUnder_pairwise cmp hswo l2 h2
  have ms1 : (l1.map (fun z => l1.countP (fun w => cmp w z))).Sorted (· ≤ ·) :=
    p1.map _ (fun a b hab => hmono a b hab)
  have ms2 : (l2.map (fun z => l1.countP (fun w => cmp w z))).Sorted (· ≤ ·) :=
    p2.map _ (fun a b hab => hmono a b hab)
  have meq : l1.map (fun z => l1.countP (fun w => cmp w z))
      = l2.map (fun z => l1.countP (fun w => cmp w z)) :=
    List.eq_of_perm_of_sorted (hp.map _) ms1 ms2
  have hfx : (l1.map (fun z => l1.countP (fun w => cmp w z)))[i]?
      = some (l1.countP (fun w => cmp w x)) := by
    rw [List.getElem?_map, hx]
    rfl
  have hfy : (l2.map (fun z => l1.countP (fun w => cmp w z)))[i]?
      = some (l1.countP (fun w => cmp w y)) := by
    rw [List.getElem?_map, hy]
    rfl
  have hf : l1.countP (fun w => cmp w x) = l1.countP (fun w => cmp w y) := by
    rw [meq, hfy] at hfx
    exact (Option.some.inj hfx).symm
  have hx1 : x ∈ l1 := List.getElem?_mem hx
  have hy1 : y ∈ l1 := hp.mem_iff.mpr (List.getElem?_mem hy)
  constructor
  · cases hxy : cmp x y
    · rfl
    · exfalso
      have hlt := countP_lt_of_mem l1 (fun w => cmp w x) (fun w => cmp w y) x hx1
        (fun z _ hzx => swo_trans cmp hswo z x y hzx hxy)
        (swo_irrefl cmp hswo x) hxy
      omega
  · cases hyx : cmp y x
    · rfl
    · exfalso
      have hlt := countP_lt_of_mem l1 (fun w => cmp w y) (fun w => cmp w x) y hy1
        (fun z _ hzy => swo_trans cmp hswo z y x hzy hyx)
        (swo_irrefl cmp hswo y) hyx
      omega

theorem eq_of_perm_of_sortedUnder (cmp : α → α → Bool) (hswo : StrictWeakCmp cmp)
    (hanti : ∀ a b : α, cmp a b = false → cmp b a = false → a = b)
    (l1 l2 : List α) (hp : l1.Perm l2)
    (h1 : SortedUnder cmp l1) (h2 : SortedUnder cmp l2) : l1 = l2 := by
  haveI : IsAntisymm α (fun a b => cmp b a = false) :=
    ⟨fun a b hab hba => hanti a b hba hab⟩
  exact List.eq_of_perm_of_sorted hp
    (sortedUnder_pairwise cmp hswo l1 h1) (sortedUnder_pairwise cmp hswo l2 h2)

theorem upper_bound_insert_perm (cmp : α → α → Bool) (x : α) (l : List α) :
    (detail.upper_bound_insert cmp x l).Perm (x :: l) := by
  induction l with
  | nil => simp [detail.upper_bound_insert]
  | cons y ys ih =>
    unfold detail.upper_bound_insert
    by_cases hxy : cmp x y = true
    · simp [hxy]
    · simp only [hxy, if_false]
      exact (ih.cons y).trans (List.Perm.swap x y ys)

theorem upper_bound_insert_pairwise (cmp : α → α → Bool) (hswo : StrictWeakCmp cmp)
    (x : α) (l : List α) (hl : l.Pairwise (fun a b => cmp b a = false)) :
    (detail.upper_bound_insert cmp x l).Pairwise (fun a b => cmp b a = false) := by
  induction l with
  | nil => simp [detail.upper_bound_insert]
  | cons y ys ih =>
    rw [List.pairwise_cons] at hl
    obtain ⟨hy, hys⟩ := hl
    unfold detail.upper_bound_insert
    by_cases hxy : cmp x y = true
    · rw [if_pos hxy]
      rw [List.pairwise_cons]
      refine ⟨?_, ?_⟩
      · intro z hz
        rcases List.mem_cons.mp hz with hzy | hzs
        · subst hzy
          exact hswo.1 x z hxy
        · cases hzx : cmp z x
          · rfl
          · have hzy2 := swo_trans cmp hswo z x y hzx hxy
            rw [hy z hzs] at hzy2
            exact absurd hzy2 (by simp)
      · rw [List.pairwise_cons]
        exact ⟨hy, hys⟩
    · rw [if_neg hxy]
      rw [List.pairwise_cons]
      refine ⟨?_, ih hys⟩
      intro z hz
      have hz' := (upper_bound_insert_perm cmp x ys).mem_iff.mp hz
      rcases List.mem_cons.mp hz' with hzx | hzs
      · subst hzx
        simpa using hxy
      · exact hy z hzs

theorem upper_bound_insert_filter (cmp : α → α → Bool) (hswo : StrictWeakCmp cmp)
    (x k : α) (l : List α) (hl : l.Pairwise (fun a b => cmp b a = false)) :
    (detail.upper_bound_insert cmp x l).filter (fun z => eqvB cmp z k)
      = if eqvB cmp x k = true
          then l.filter (fun z => eqvB cmp z k) ++ [x]
          else l.filter (fun z => eqvB cmp z k) := by
  induction l with
  | nil =>
    cases hek : eqvB cmp x k <;> simp [detail.upper_bound_insert, List.filter, hek]
  | cons y ys ih =>
    rw [List.pairwise_cons] at hl
    obtain ⟨hy, hys⟩ := hl
    unfold detail.upper_bound_insert
    by_cases hxy : cmp x y = true
    · rw [if_pos hxy]
      by_cases hek : eqvB cmp x k = true
      · rw [if_pos hek]
        have hxk : cmp x k = false ∧ cmp k x = false := by
          simpa [eqvB] using hek
        have hky : cmp k y = true := by
          cases hky : cmp k y
          · have := hswo.2 x k y hxk.1 hky
            rw [hxy] at this
            exact absurd this (by simp)
          · rfl
        have hnil : (y :: ys).filter (fun z => eqvB cmp z k) = [] := by
          rw [List.filter_eq_nil_iff]
          intro z hz
          have hkz : cmp k z = true := by
            rcases List.mem_cons.mp hz with hzy | hzs
            · subst hzy; exact hky
            · cases hkz : cmp k z
              · have := hswo.2 k z y hkz (hy z hzs)
                rw [hky] at this
                exact absurd this (by simp)
              · rfl
          simp [eqvB, hkz]
        rw [List.filter_cons, if_pos hek, hnil]
        simp
      · rw [if_neg hek, List.filter_cons, if_neg hek]
    · rw [if_neg hxy]
      have hins := ih hys
      by_cases hey : eqvB cmp y k = true
      · by_cases hek : eqvB cmp x k = true
        · simp [List.filter_cons, hey, hek, hins]
        · have hekf : eqvB cmp x k = false := by simpa using hek
          simp [List.filter_cons, hey, hekf, hins]
      · have heyf : eqvB cmp y k = false := by simpa using hey
        by_cases hek : eqvB cmp x k = true
        · simp [List.filter_cons, heyf, hek, hins]
        · have hekf : eqvB cmp x k = false := by simpa using hek
          simp [List.filter_cons, heyf, hekf, hins]

theorem foldl_insert_perm (cmp : α → α → Bool) :
    ∀ (l acc : List α),
      (List.foldl (fun acc x => detail.upper_bound_insert cmp x acc) acc l).Perm (acc ++ l) := by
  intro l
  induction l with
  | nil => intro acc; simp
  | cons x xs ih =>
    intro acc
    rw [List.foldl_cons]
    have h1 := ih (detail.upper_bound_insert cmp x acc)
    have h2 : (detail.upper_bound_insert cmp x acc ++ xs).Perm ((x :: acc) ++ xs) :=
      (upper_bound_insert_perm cmp x acc).append_right xs
    have h3 : ((x :: acc) ++ xs).Perm (acc ++ x :: xs) := by
      have hmid : (acc ++ x :: xs).Perm (x :: (acc ++ xs)) := List.perm_middle
      simpa using hmid.symm
    exact (h1.trans h2).trans h3

theorem foldl_insert_pairwise (cmp : α → α → Bool) (hswo : StrictWeakCmp cmp) :
    ∀ (l acc : List α), acc.Pairwise (fun a b => cmp b a = false) →
      (List.foldl (fun acc x => detail.upper_bound_insert cmp x acc) acc l).Pairwise
        (fun a b => cmp b a = false) := by
  intro l
  induction l with
  | nil => intro acc hacc; simpa using hacc
  | cons x xs ih =>
    intro acc hacc
    rw [List.foldl_cons]
    exact ih _ (upper_bound_insert_pairwise cmp hswo x acc hacc)

theorem foldl_insert_filter (cmp : α → α → Bool) (hswo : StrictWeakCmp cmp) (k : α) :
    ∀ (l acc : List α), acc.Pairwise (fun a b => cmp b a = false) →
      (List.foldl (fun acc x => detail.upper_bound_insert cmp x acc) acc l).filter
          (fun z => eqvB cmp z k)
        = acc.filter (fun z => eqvB cmp z k) ++ l.filter (fun z => eqvB cmp z k) := by
  intro l
  induction l with
  | nil => intro acc hacc; simp
  | cons x xs ih =>
    intro acc hacc
    rw [List.foldl_cons]
    rw [ih _ (upper_bound_insert_pairwise cmp hswo x acc hacc)]
    rw [upper_bound_insert_filter cmp hswo x k acc hacc]
    by_cases hek : eqvB cmp x k = true
    · rw [if_pos hek, List.filter_cons, if_pos hek]
      simp
    · rw [if_neg hek, List.filter_cons, if_neg hek]

theorem insertion_sort_perm (cmp : α → α → Bool) (l : List α) :
    (detail.insertion_sort cmp l).Perm l := by
  have h := foldl_insert_perm cmp l []
  simpa [detail.insertion_sort] using h

theorem insertion_sort_sorted (cmp : α → α → Bool) (hswo : StrictWeakCmp cmp) (l : List α) :
    SortedUnder cmp (detail.insertion_sort cmp l) := by
  have h := foldl_insert_pairwise cmp hswo l [] (by simp)
  haveI : IsTrans α (fun a b => cmp b a = false) :=
    ⟨fun a b c h1 h2 => hswo.2 c b a h2 h1⟩
  unfold SortedUnder
  rw [List.chain'_iff_pairwise]
  exact h

theorem insertion_sort_stable (cmp : α → α → Bool) (hswo : StrictWeakCmp cmp)
    (l : List α) (k : α) :
    (detail.insertion_sort cmp l).filter (fun z => eqvB cmp z k)
      = l.filter (fun z => eqvB cmp z k) := by
  have h := foldl_insert_filter cmp hswo k l [] (by simp)
  simpa [detail.insertion_sort] using h

theorem naive_parallel_quicksort_trace_short (pivot_func : List α → Nat)
    (cmp : α → α → Bool) (l : List α) (depth : Int) (h : l.length < 2) :
    naive_parallel_quicksort_trace pivot_func cmp l depth = PTrace.leaf l := by
  unfold naive_parallel_quicksort_trace
  simp [h]

theorem naive_parallel_quicksort_trace_unfold (pivot_func : List α → Nat)
    (cmp : α → α → Bool) (l : List α) (depth : Int) (h : ¬ l.length < 2) :
    naive_parallel_quicksort_trace pivot_func cmp l depth =
      PTrace.node depth (decide (depth < 5))
        (naive_parallel_quicksort_trace pivot_func cmp
          ((partitionStep pivot_func cmp l).1.take ((partitionStep pivot_func cmp l).2 - 1))
          (depth + 1))
        (naive_parallel_quicksort_trace pivot_func cmp
          ((partitionStep pivot_func cmp l).1.drop (partitionStep pivot_func cmp l).2)
          (depth + 1)) := by
  conv_lhs => rw [naive_parallel_quicksort_trace]
  by_cases hd : depth < 5 <;> simp [h, hd]

theorem trace_fork_discipline (pivot_func : List α → Nat) (cmp : α → α → Bool)
    (l : List α) (depth : Int) :
    ForkDisciplineFrom (naive_parallel_quicksort_trace pivot_func cmp l depth) depth := by
  suffices h : ∀ n (l : List α), l.length = n → ∀ depth : Int,
      ForkDisciplineFrom (naive_parallel_quicksort_trace pivot_func cmp l depth) depth by
    exact h l.length l rfl depth
  intro n
  induction n using Nat.strong_induction_on with
  | _ n ih =>
    intro l hn depth
    by_cases hs : l.length < 2
    · rw [naive_parallel_quicksort_trace_short _ _ _ _ hs]
      simp [ForkDisciplineFrom]
    · have h2 : 2 ≤ l.length := by omega
      have hlt := partitionStep_shrinks pivot_func cmp l h2
      rw [naive_parallel_quicksort_trace_unfold _ _ _ _ hs]
      unfold ForkDisciplineFrom
      refine ⟨rfl, rfl, ?_, ?_⟩
      · exact ih _ (by omega : ((partitionStep pivot_func cmp l).1.take
          ((partitionStep pivot_func cmp l).2 - 1)).length < n) _ rfl _
      · exact ih _ (by omega : ((partitionStep pivot_func cmp l).1.drop
          (partitionStep pivot_func cmp l).2).length < n) _ rfl _

theorem goodPivot_median : GoodPivot (pivot.median : List α → Nat) := by
  intro l h2
  unfold pivot.median
  omega

theorem goodPivot_first : GoodPivot (fun _ : List α => 0) := by
  intro l h2
  show (0 : Nat) < l.length
  omega

/-- Default integer comparator `std::less<>` at type `Nat`. -/
def natLt (a b : Nat) : Bool := decide (a < b)

/-- Comparator ordering naturals by their half, a strict weak ordering with
non-trivial equivalence classes (`2` and `3` are equivalent but distinct). -/
def natHalfLt (a b : Nat) : Bool := decide (a / 2 < b / 2)

theorem strictWeakCmp_decide_lt {β : Type u} [LinearOrder β] :
    StrictWeakCmp (fun a b : β => decide (a < b)) := by
  constructor
  · intro a b h
    rw [decide_eq_true_eq] at h
    simp only [decide_eq_false_iff_not]
    exact lt_asymm h
  · intro a b c h1 h2
    simp only [decide_eq_false_iff_not] at h1 h2 ⊢
    intro hac
    exact h2 (lt_of_le_of_lt (le_of_not_lt h1) hac)

theorem strictWeak_natLt : StrictWeakCmp natLt := strictWeakCmp_decide_lt

theorem strictWeak_natHalfLt : StrictWeakCmp natHalfLt := by
  constructor
  · intro a b h
    unfold natHalfLt at *
    rw [decide_eq_true_eq] at h
    simp only [decide_eq_false_iff_not]
    omega
  · intro a b c h1 h2
    unfold natHalfLt at *
    simp only [decide_eq_false_iff_not] at h1 h2 ⊢
    omega

theorem natLt_eqv_eq (a b : Nat) (h1 : natLt a b = false) (h2 : natLt b a = false) :
    a = b := by
  unfold natLt at *
  simp only [decide_eq_false_iff_not] at h1 h2
  omega

theorem sortedUnder_adjacent (cmp : α → α → Bool) (l : List α) (h : SortedUnder cmp l) :
    ∀ (i : Nat) (x y : α), l[i]? = some x → l[i + 1]? = some y → cmp y x = false := by
  intro i x y hx hy
  have h2 := List.chain'_iff_get.mp h
  obtain ⟨hylen, hyv⟩ := List.getElem?_eq_some_iff.mp hy
  obtain ⟨hxlen, hxv⟩ := List.getElem?_eq_some_iff.mp hx
  have := h2 i (by omega)
  simp only [List.get_eq_getElem] at this
  rw [hxv, hyv] at this
  exact this

theorem partitionStep_length_sum (pivot_func : List α → Nat) (cmp : α → α → Bool)
    (l : List α) (h2 : 2 ≤ l.length) :
    ((partitionStep pivot_func cmp l).1.take ((partitionStep pivot_func cmp l).2 - 1)).length
      + 1 +
    ((partitionStep pivot_func cmp l).1.drop (partitionStep pivot_func cmp l).2).length
      = l.length := by
  unfold partitionStep
  split
  · simp only [List.length_take, List.length_drop]
    omega
  · rename_i pivot_value hpv
    simp only [List.length_take, List.length_drop, length_swapIdx, List.length_cons,
      List.length_append]
    have hsum := length_filter_add_length_filter_not
      (fun v => cmp v pivot_value) (swapIdx l 0 (pivot_func l)).tail
    have htail : ((swapIdx l 0 (pivot_func l)).tail).length = l.length - 1 := by
      simp [length_swapIdx]
    omega

theorem seq_halfLt_eval : sequential_quicksort pivot.median natHalfLt [2, 3] = [3, 2] := by
  rw [sequential_quicksort_unfold _ _ _ (by decide)]
  have hps : partitionStep pivot.median natHalfLt [2, 3] = ([3, 2], 1) := by decide
  rw [hps]
  show sequential_quicksort pivot.median natHalfLt []
      ++ [3] ++ sequential_quicksort pivot.median natHalfLt [2] = [3, 2]
  rw [sequential_quicksort_short _ _ _ (by decide),
    sequential_quicksort_short _ _ _ (by decide)]
  rfl

/-- Claim C1: for every finite sequence and every valid strict-weak-ordering
comparator, after `sequential_quicksort` the sequence is non-decreasing under
`cmp`: `!cmp(S[i+1], S[i])` holds at every adjacent pair of positions. -/
theorem C1_sequential_quicksort_sorted (cmp : α → α → Bool) (pivot_func : List α → Nat)
    (hswo : StrictWeakCmp cmp) (hgp : GoodPivot pivot_func) (l : List α) :
    SortedUnder cmp (sequential_quicksort pivot_func cmp l) ∧
    ∀ (i : Nat) (x y : α),
      (sequential_quicksort pivot_func cmp l)[i]? = some x →
      (sequential_quicksort pivot_func cmp l)[i + 1]? = some y →
      cmp y x = false := by
  have hs := sequential_quicksort_sorted pivot_func cmp hgp hswo.1 l
  exact ⟨hs, sortedUnder_adjacent cmp _ hs⟩

theorem C1_witness :
    SortedUnder natLt (sequential_quicksort pivot.median natLt [3, 1, 2]) :=
  (C1_sequential_quicksort_sorted natLt pivot.median strictWeak_natLt
    goodPivot_median [3, 1, 2]).1

/-- Claim C2: for every finite sequence and every comparator, both
`sequential_quicksort` and `naive_parallel_quicksort` leave the multiset of
elements unchanged: no element is added, removed, or duplicated. -/
theorem C2_multiset_invariant (cmp : α → α → Bool) (pivot_func : List α → Nat)
    (hgp : GoodPivot pivot_func) (l : List α) :
    ((sequential_quicksort pivot_func cmp l : List α) : Multiset α) = (l : Multiset α) ∧
    ∀ depth : Int,
      ((naive_parallel_quicksort pivot_func cmp l depth : List α) : Multiset α)
        = (l : Multiset α) := by
  constructor
  · exact Multiset.coe_eq_coe.mpr (sequential_quicksort_perm pivot_func cmp hgp l)
  · intro depth
    rw [naive_parallel_quicksort_eq_sequential]
    exact Multiset.coe_eq_coe.mpr (sequential_quicksort_perm pivot_func cmp hgp l)

theorem C2_witness :
    ((sequential_quicksort pivot.median natLt [3, 1, 2] : List Nat) : Multiset Nat)
      = (([3, 1, 2] : List Nat) : Multiset Nat) :=
  (C2_multiset_invariant natLt pivot.median goodPivot_median [3, 1, 2]).1

/-- Claim C5: on every range of length at least 2, the two ranges passed to
the recursive calls of `sequential_quicksort` are the ones produced by the
partition step, each is strictly shorter than the input range, and together
with the pivot (the one element left in place between them) they account for
the whole range: the pivot is excluded from both sub-ranges, so each
recursive call shrinks the range by at least one element and the recursion
terminates on finite ranges. -/
theorem C5_recursion_shrinks (pivot_func : List α → Nat) (cmp : α → α → Bool)
    (l : List α) (h2 : 2 ≤ l.length) :
    sequential_quicksort pivot_func cmp l =
      sequential_quicksort pivot_func cmp
          ((partitionStep pivot_func cmp l).1.take ((partitionStep pivot_func cmp l).2 - 1))
        ++ ((partitionStep pivot_func cmp l).1.drop ((partitionStep pivot_func cmp l).2 - 1)).take 1
        ++ sequential_quicksort pivot_func cmp
          ((partitionStep pivot_func cmp l).1.drop (partitionStep pivot_func cmp l).2) ∧
    ((partitionStep pivot_func cmp l).1.take ((partitionStep pivot_func cmp l).2 - 1)).length
      < l.length ∧
    ((partitionStep pivot_func cmp l).1.drop (partitionStep pivot_func cmp l).2).length
      < l.length ∧
    ((partitionStep pivot_func cmp l).1.take ((partitionStep pivot_func cmp l).2 - 1)).length
      + 1 +
    ((partitionStep pivot_func cmp l).1.drop (partitionStep pivot_func cmp l).2).length
      = l.length :=
  ⟨sequential_quicksort_unfold pivot_func cmp l (by omega),
   (partitionStep_shrinks pivot_func cmp l h2).1,
   (partitionStep_shrinks pivot_func cmp l h2).2,
   partitionStep_length_sum pivot_func cmp l h2⟩

theorem C5_witness :
    ((partitionStep pivot.median natLt [2, 1]).1.take
        ((partitionStep pivot.median natLt [2, 1]).2 - 1)).length < 2 ∧
    ((partitionStep pivot.median natLt [2, 1]).1.drop
        (partitionStep pivot.median natLt [2, 1]).2).length < 2 := by
  have h := C5_recursion_shrinks pivot.median natLt [2, 1] (by decide)
  exact ⟨h.2.1, h.2.2.1⟩

/-- Claim C6: `naive_parallel_quicksort`, with depth 0 at the top level,
launches a thread for the left sub-range exactly when `depth < 5` (the
`DEPTH_LIMIT`), passes `depth+1` to both recursive calls everywhere in its
call tree, and for `depth >= 5` computes exactly what the sequential driver
computes.  The fork/join scheduling itself is outside the functional model;
the join before return is reflected in the result containing the sorted left
sub-range. -/
theorem C6_fork_discipline (pivot_func : List α → Nat) (cmp : α → α → Bool) (l : List α) :
    ForkDisciplineFrom (naive_parallel_quicksort_trace pivot_func cmp l 0) 0 ∧
    ∀ (m : List α) (d : Int), 5 ≤ d →
      naive_parallel_quicksort pivot_func cmp m d = sequential_quicksort pivot_func cmp m :=
  ⟨trace_fork_discipline pivot_func cmp l 0,
   fun m d _ => naive_parallel_quicksort_eq_sequential pivot_func cmp m d⟩

theorem C6_witness :
    ForkDisciplineFrom (naive_parallel_quicksort_trace pivot.median natLt [2, 1] 0) 0 ∧
    naive_parallel_quicksort pivot.median natLt [2, 1] 7
      = sequential_quicksort pivot.median natLt [2, 1] :=
  ⟨(C6_fork_discipline pivot.median natLt [2, 1]).1,
   (C6_fork_discipline pivot.median natLt [2, 1]).2 [2, 1] 7 (by omega)⟩

/-- Claim C7: on every range of length strictly less than 2, both quicksort
drivers return without touching the range: empty stays empty, a singleton is
unchanged. -/
theorem C7_trivial_ranges (pivot_func : List α → Nat) (cmp : α → α → Bool)
    (l : List α) (h : l.length < 2) :
    sequential_quicksort pivot_func cmp l = l ∧
    ∀ depth : Int, naive_parallel_quicksort pivot_func cmp l depth = l :=
  ⟨sequential_quicksort_short pivot_func cmp l h,
   fun depth => naive_parallel_quicksort_short pivot_func cmp l depth h⟩

theorem C7_witness :
    sequential_quicksort pivot.median natLt [] = [] ∧
    sequential_quicksort pivot.median natLt [7] = [7] :=
  ⟨(C7_trivial_ranges pivot.median natLt [] (by decide)).1,
   (C7_trivial_ranges pivot.median natLt [7] (by decide)).1⟩

/-- Claim C3 (amended): after the partition step on a range of length at
least 2 with an in-range pivot, every element at a position in the half-open
interval `[first, boundary-1)` compares less than the pivot value, the pivot
value resides at `boundary - 1`, every element at a position in
`[boundary, last)` does not compare less than the pivot value, and every
element equal to the pivot (neither `cmp(a, pivot)` nor `cmp(pivot, a)`)
lands in the not-less group `[boundary, last)`. -/
theorem C3_partition_postcondition (cmp : α → α → Bool) (pivot_func : List α → Nat)
    (l : List α) (pv : α) (h2 : 2 ≤ l.length) (hpv : l[pivot_func l]? = some pv) :
    (∀ (i : Nat) (x : α), i < (partitionStep pivot_func cmp l).2 - 1 →
        (partitionStep pivot_func cmp l).1[i]? = some x → cmp x pv = true) ∧
    (partitionStep pivot_func cmp l).1[(partitionStep pivot_func cmp l).2 - 1]? = some pv ∧
    (∀ (i : Nat) (x : α), (partitionStep pivot_func cmp l).2 ≤ i →
        (partitionStep pivot_func cmp l).1[i]? = some x → cmp x pv = false) ∧
    (∀ x : α, x ∈ (swapIdx l 0 (pivot_func l)).tail → cmp x pv = false → cmp pv x = false →
        x ∈ (partitionStep pivot_func cmp l).1.drop (partitionStep pivot_func cmp l).2) := by
  obtain ⟨rest, hsw, hlen, hperm, hb, htake, hmid, hdrop, halen⟩ :=
    partitionStep_spec pivot_func cmp l pv hpv h2
  refine ⟨?_, ?_, ?_, ?_⟩
  · intro i x hi hx
    have h1 : ((partitionStep pivot_func cmp l).1.take
        ((partitionStep pivot_func cmp l).2 - 1))[i]? = some x := by
      rw [List.getElem?_take, if_pos hi]
      exact hx
    have hmem := List.getElem?_mem h1
    have hmem2 := htake.mem_iff.mp hmem
    exact (List.mem_filter.mp hmem2).2
  · have h1 : (((partitionStep pivot_func cmp l).1.drop
        ((partitionStep pivot_func cmp l).2 - 1)).take 1)[0]? = some pv := by
      rw [hmid]
      rfl
    rw [List.getElem?_take, if_pos (by omega : (0:Nat) < 1), List.getElem?_drop] at h1
    simpa using h1
  · intro i x hi hx
    have h1 : ((partitionStep pivot_func cmp l).1.drop
        (partitionStep pivot_func cmp l).2)[i - (partitionStep pivot_func cmp l).2]?
        = some x := by
      rw [List.getElem?_drop]
      have he : (partitionStep pivot_func cmp l).2
          + (i - (partitionStep pivot_func cmp l).2) = i := by omega
      rw [he]
      exact hx
    rw [hdrop] at h1
    have hmem := List.getElem?_mem h1
    have := (List.mem_filter.mp hmem).2
    simpa using this
  · intro x hx hcmp _
    rw [hdrop]
    have hxr : x ∈ rest := by
      rw [hsw] at hx
      simpa using hx
    exact List.mem_filter.mpr ⟨hxr, by simp [hcmp]⟩

theorem C3_witness :
    (partitionStep pivot.median natLt [2, 1, 3]).1[(partitionStep pivot.median
      natLt [2, 1, 3]).2 - 1]? = some 1 :=
  (C3_partition_postcondition natLt pivot.median [2, 1, 3] 1 (by decide) (by decide)).2.1

theorem C3_counterexample :
    StrictWeakCmp natLt ∧
    ([1, 2] : List Nat)[pivot.median ([1, 2] : List Nat)]? = some 2 ∧
    (partitionStep pivot.median natLt [1, 2]).2 = 2 ∧
    ¬ (∀ (i : Nat) (x : Nat), i ≤ (partitionStep pivot.median natLt [1, 2]).2 - 1 →
        (partitionStep pivot.median natLt [1, 2]).1[i]? = some x → natLt x 2 = true) := by
  refine ⟨strictWeak_natLt, by decide, by decide, ?_⟩
  intro hall
  have := hall 1 2 (by decide) (by decide)
  exact absurd this (by decide)

/-- Claim C4: for every sequence, every valid strict-weak-ordering
comparator, and any valid pivot selections for the two drivers, the final
value-sequence produced by `naive_parallel_quicksort` (depth 0 at the top
level) is identical to the one produced by `sequential_quicksort` up to the
relative order of equal elements: the two results are permutations of each
other and their elements are pairwise equivalent position by position. -/
theorem C4_variants_equivalent (cmp : α → α → Bool) (pf1 pf2 : List α → Nat)
    (hswo : StrictWeakCmp cmp) (hgp1 : GoodPivot pf1) (hgp2 : GoodPivot pf2)
    (l : List α) :
    (sequential_quicksort pf1 cmp l).Perm (naive_parallel_quicksort pf2 cmp l 0) ∧
    ∀ (i : Nat) (x y : α),
      (sequential_quicksort pf1 cmp l)[i]? = some x →
      (naive_parallel_quicksort pf2 cmp l 0)[i]? = some y →
      cmp x y = false ∧ cmp y x = false := by
  rw [naive_parallel_quicksort_eq_sequential]
  have h1 := sequential_quicksort_perm pf1 cmp hgp1 l
  have h2 := sequential_quicksort_perm pf2 cmp hgp2 l
  have hp : (sequential_quicksort pf1 cmp l).Perm (sequential_quicksort pf2 cmp l) :=
    h1.trans h2.symm
  refine ⟨hp, ?_⟩
  intro i x y hx hy
  exact sorted_perm_pointwise cmp hswo _ _ hp
    (sequential_quicksort_sorted pf1 cmp hgp1 hswo.1 l)
    (sequential_quicksort_sorted pf2 cmp hgp2 hswo.1 l) i x y hx hy

theorem C4_witness :
    (sequential_quicksort pivot.median natLt [3, 1, 2, 2]).Perm
      (naive_parallel_quicksort (fun _ => 0) natLt [3, 1, 2, 2] 0) :=
  (C4_variants_equivalent natLt pivot.median (fun _ => 0) strictWeak_natLt
    goodPivot_median goodPivot_first [3, 1, 2, 2]).1

/-- Claim C8 (amended): sorting an already-sorted sequence leaves it
unchanged up to the positions of equivalent elements; when equivalence under
the comparator implies equality (as for the default less-than on integers),
the value sequence is left exactly unchanged.  The unamended claim fails for
valid comparators with non-trivial equivalence classes. -/
theorem C8_idempotent_on_sorted (cmp : α → α → Bool) (pivot_func : List α → Nat)
    (hswo : StrictWeakCmp cmp) (hgp : GoodPivot pivot_func)
    (l : List α) (hsorted : SortedUnder cmp l) :
    (∀ (i : Nat) (x y : α), (sequential_quicksort pivot_func cmp l)[i]? = some x →
        l[i]? = some y → cmp x y = false ∧ cmp y x = false) ∧
    ((∀ a b : α, cmp a b = false → cmp b a = false → a = b) →
      sequential_quicksort pivot_func cmp l = l) := by
  have hperm := sequential_quicksort_perm pivot_func cmp hgp l
  have hsort := sequential_quicksort_sorted pivot_func cmp hgp hswo.1 l
  constructor
  · intro i x y hx hy
    exact sorted_perm_pointwise cmp hswo _ _ hperm hsort hsorted i x y hx hy
  · intro hanti
    exact eq_of_perm_of_sortedUnder cmp hswo hanti _ _ hperm hsort hsorted

theorem C8_witness :
    sequential_quicksort pivot.median natLt [1, 2, 3] = [1, 2, 3] :=
  (C8_idempotent_on_sorted natLt pivot.median strictWeak_natLt goodPivot_median
    [1, 2, 3] (by
      unfold SortedUnder
      rw [List.chain'_cons, List.chain'_cons]
      exact ⟨by decide, by decide, List.chain'_singleton 3⟩)).2 natLt_eqv_eq

theorem C8_counterexample :
    StrictWeakCmp natHalfLt ∧
    GoodPivot (pivot.median : List Nat → Nat) ∧
    SortedUnder natHalfLt [2, 3] ∧
    sequential_quicksort pivot.median natHalfLt [2, 3] ≠ [2, 3] := by
  refine ⟨strictWeak_natHalfLt, goodPivot_median, ?_, ?_⟩
  · unfold SortedUnder
    rw [List.chain'_cons]
    exact ⟨by decide, List.chain'_singleton 3⟩
  rw [seq_halfLt_eval]
  decide

/-- Claim C9: `detail::insertion_sort` rearranges the range into a sorted
permutation of its original contents, and it is stable: for every key, the
subsequence of elements equivalent to that key under the comparator is
exactly the same as in the input, so equivalent elements keep their
original relative order. -/
theorem C9_insertion_sort_stable_sort (cmp : α → α → Bool) (hswo : StrictWeakCmp cmp)
    (l : List α) :
    (detail.insertion_sort cmp l).Perm l ∧
    SortedUnder cmp (detail.insertion_sort cmp l) ∧
    ∀ k : α, (detail.insertion_sort cmp l).filter (fun z => eqvB cmp z k)
      = l.filter (fun z => eqvB cmp z k) :=
  ⟨insertion_sort_perm cmp l, insertion_sort_sorted cmp hswo l,
   fun k => insertion_sort_stable cmp hswo l k⟩

theorem C9_witness :
    (detail.insertion_sort natLt [3, 1, 2, 1]).Perm [3, 1, 2, 1] :=
  (C9_insertion_sort_stable_sort natLt strictWeak_natLt [3, 1, 2, 1]).1

/-- Claim C10: `detail::sort_small_instances` sorts a range in ascending
order under the default less-than ordering exactly when the range's length
is strictly less than 40, and leaves any range of length 40 or more
completely unchanged.  The function takes no comparator argument, so a
custom comparator supplied to the quicksort entry points would be ignored
on this (currently disabled) path. -/
theorem C10_sort_small_instances {β : Type u} [LinearOrder β] (l : List β) :
    (l.length < 40 →
      (detail.sort_small_instances l).Perm l ∧
      SortedUnder (fun a b : β => decide (a < b)) (detail.sort_small_instances l)) ∧
    (40 ≤ l.length → detail.sort_small_instances l = l) := by
  constructor
  · intro h
    unfold detail.sort_small_instances
    rw [if_pos h]
    exact ⟨insertion_sort_perm _ l, insertion_sort_sorted _ strictWeakCmp_decide_lt l⟩
  · intro h
    unfold detail.sort_small_instances
    rw [if_neg (by omega)]

theorem C10_witness :
    ((detail.sort_small_instances [3, 1, 2]).Perm [3, 1, 2] ∧
      SortedUnder (fun a b : Nat => decide (a < b)) (detail.sort_small_instances [3, 1, 2])) ∧
    detail.sort_small_instances (List.replicate 40 (0 : Nat)) = List.replicate 40 (0 : Nat) :=
  ⟨(C10_sort_small_instances [3, 1, 2]).1 (by decide),
   (C10_sort_small_instances (List.replicate 40 (0 : Nat))).2 (by simp)⟩
